import Mathlib

/-!
Verification of the RAG pipeline of the `ai-tutor-system` repository.

The Python source is shallowly embedded over `List Char` (a Python `str`
is a sequence of Unicode code points, which `List Char` models exactly).
The chunker (`PDFProcessor.create_chunks` in
`ai_tutor_system/pdf_processor.py`) is embedded as a fold over the
paragraph list; the RAG engine (`RAGEngine` in
`ai_tutor_system/rag_engine.py`) is embedded with every external call
(embedding service, generation service, Chroma query) passed in as an
explicit outcome parameter, and the Chroma collection as a `List Entry`.
-/

namespace AiTutor

/-! ## Configuration constants (`config.py`) -/

def CHUNK_SIZE : Nat := 500
def CHUNK_OVERLAP : Nat := 100
def TOP_K : Nat := 5
def CHAPTER_NUMBER : Nat := 10
def CHAPTER_10_START_PAGE : Int := 419

/-! ## Python string primitives over `List Char` -/

/-- The ASCII whitespace characters stripped by Python `str.strip()`
(the texts this pipeline manipulates contain no exotic Unicode
whitespace, so the ASCII set is the faithful model). -/
def isWS (c : Char) : Bool :=
  c = ' ' || c = '\t' || c = '\n' || c = '\r' || c = Char.ofNat 11 || c = Char.ofNat 12

/-- Python `str.strip()`: remove leading and trailing whitespace. -/
def pyStrip (s : List Char) : List Char :=
  ((s.dropWhile isWS).reverse.dropWhile isWS).reverse

/-- Whitespace normalization: delete every whitespace character.  Two
strings are "equal modulo whitespace normalization" when their `noWS`
images coincide. -/
def noWS (s : List Char) : List Char :=
  s.filter (fun c => !isWS c)

/-- The paragraph separator `"\n\n"`. -/
def sep : List Char := ['\n', '\n']

/-- Python `text.split('\n\n')` (auxiliary: `acc` is the reversed
current piece).  Non-overlapping, leftmost-first, like `str.split`. -/
def pySplitAux : List Char → List Char → List (List Char)
  | acc, [] => [acc.reverse]
  | acc, '\n' :: '\n' :: rest => acc.reverse :: pySplitAux [] rest
  | acc, c :: rest => pySplitAux (c :: acc) rest

/-- Python `text.split('\n\n')`. -/
def pySplit (s : List Char) : List (List Char) :=
  pySplitAux [] s

/-- Python `int()` of a digit string. -/
def digitsToNat (ds : List Char) : Nat :=
  ds.foldl (fun a c => a * 10 + (c.toNat - '0'.toNat)) 0

/-- Match the regex `\[第(\d+)页\]` anchored at the head of `s`:
on success return the page number (group 1) and the rest of the input
after the match. -/
def markerAt : List Char → Option (Nat × List Char) := fun s =>
  match s with
  | c1 :: c2 :: rest =>
    if c1 = '[' ∧ c2 = '第' then
      match rest.dropWhile Char.isDigit with
      | c3 :: c4 :: r =>
        if rest.takeWhile Char.isDigit ≠ [] ∧ c3 = '页' ∧ c4 = ']' then
          some (digitsToNat (rest.takeWhile Char.isDigit), r)
        else none
      | _ => none
    else none
  | _ => none

theorem markerAt_length {s : List Char} {n : Nat} {r : List Char}
    (h : markerAt s = some (n, r)) : r.length + 4 ≤ s.length := by
  unfold markerAt at h
  match s with
  | [] => simp at h
  | [c] => simp at h
  | c1 :: c2 :: rest =>
    simp only at h
    split at h
    · split at h
      · next heq =>
        split at h
        · simp only [Option.some.injEq, Prod.mk.injEq] at h
          obtain ⟨-, hr⟩ := h
          subst hr
          have h1 : (rest.dropWhile Char.isDigit).length ≤ rest.length :=
            (List.dropWhile_sublist _).length_le
          rw [heq] at h1
          simp only [List.length_cons] at h1 ⊢
          omega
        · simp at h
      · simp at h
    · simp at h

/-- Python `re.search(r'\[第(\d+)页\]', para)`: the page number of the
first marker occurrence, if any. -/
def searchMarker : List Char → Option Nat
  | [] => none
  | s@(_ :: rest) =>
    match markerAt s with
    | some (n, _) => some n
    | none => searchMarker rest

/-- Python consumption of the regex `\n?` tail: drop one leading
newline if present. -/
def dropOneNL : List Char → List Char
  | '\n' :: r => r
  | r => r

theorem dropOneNL_length (r : List Char) : (dropOneNL r).length ≤ r.length := by
  unfold dropOneNL
  split
  · simp
  · exact Nat.le_refl _

/-- Python `re.sub(r'\[第\d+页\]\n?', '', para)`: delete every marker
occurrence together with one directly following newline. -/
def subMarkers (s : List Char) : List Char :=
  match h : markerAt s with
  | some (_, r) => subMarkers (dropOneNL r)
  | none =>
    match s with
    | [] => []
    | c :: rest => c :: subMarkers rest
termination_by s.length
decreasing_by
  · have h1 := markerAt_length h
    have h2 := dropOneNL_length r
    omega
  · simp

/-- Python `current_chunk[-n:]` for `n ≤ len`: the last `n` characters. -/
def takeLast (n : Nat) (l : List Char) : List Char :=
  l.drop (l.length - n)

/-! ## The chunker (`PDFProcessor.create_chunks`) -/

/-- A metadata `page` value as stored in a chunk dict.  The Python value
is dynamically typed: the chunker always stores an `int`, but
`RAGEngine.generate_answer` guards with `isinstance(pdf_page, int)`, so
the model keeps the non-integer possibility. -/
inductive PageVal where
  | int (n : Int)
  | str (s : List Char)
deriving DecidableEq, Repr

/-- The `metadata` dict attached to every chunk. -/
structure ChunkMeta where
  page : PageVal
  chunk_id : Nat
  chapter : Nat
  source : List Char
deriving DecidableEq, Repr

/-- A chunk dict `{"text": ..., "metadata": {...}}`. -/
structure Chunk where
  text : List Char
  metadata : ChunkMeta
deriving DecidableEq, Repr

/-- The constant `source` string of every chunk. -/
def sourceLabel : List Char := "数据挖掘导论第10章-异常检测".data

def mkChunk (t : List Char) (page : Int) (cid : Nat) : Chunk :=
  { text := t
    metadata :=
      { page := PageVal.int page, chunk_id := cid
        chapter := CHAPTER_NUMBER, source := sourceLabel } }

/-- The mutable loop state of `create_chunks`. -/
structure CState where
  cur : List Char
  page : Int
  cid : Nat
  out : List Chunk

/-- The per-paragraph cleanup at the top of the loop body: read a page
marker (if any) into the running page, and strip all markers from the
paragraph. -/
def cleanPara (p : List Char) : List Char :=
  if (searchMarker p).isSome then subMarkers p else p

/-- One iteration of the `for para in paragraphs` loop of
`create_chunks`, parameterized by the configured chunk size and
overlap. -/
def chunkStep (cs ov : Nat) (st : CState) (para0 : List Char) : CState :=
  let page : Int :=
    match searchMarker para0 with
    | some n => (n : Int)
    | none => st.page
  let para := cleanPara para0
  if pyStrip para = [] then
    { st with page := page }
  else if st.cur.length + para.length < cs then
    { st with page := page, cur := st.cur ++ para ++ sep }
  else
    let out := if pyStrip st.cur ≠ [] then st.out ++ [mkChunk (pyStrip st.cur) page st.cid] else st.out
    let cid := if pyStrip st.cur ≠ [] then st.cid + 1 else st.cid
    let cur := if ov < st.cur.length then takeLast ov st.cur ++ para ++ sep else para ++ sep
    { cur := cur, page := page, cid := cid, out := out }

/-- `PDFProcessor.create_chunks(text)`, on the given `text` argument.
The `text is None` / empty-text path of the source falls back to
`extract_chapter_text()`, an external OCR call outside this model; with
nothing extracted the source returns `[]`, which is the embedded
behaviour for empty input. -/
def create_chunks (text : List Char) : List Chunk :=
  if text = [] then []
  else
    let st := (pySplit text).foldl (chunkStep CHUNK_SIZE CHUNK_OVERLAP)
      { cur := [], page := CHAPTER_10_START_PAGE, cid := 0, out := [] }
    if pyStrip st.cur ≠ [] then st.out ++ [mkChunk (pyStrip st.cur) st.page st.cid] else st.out

/-! ## Instrumented chunking run

`bRun` replays the text part of the chunking loop over the list of
kept (cleaned, non-blank) paragraphs, recording for every emitted chunk
its pre-strip buffer together with the overlap string that was injected
when that buffer was seeded.  `create_chunks` is proved to agree with
it (`create_chunks_texts_eq`), and the chunking claims are settled on
it. -/

structure BState where
  buf : List Char
  ovl : List Char
  items : List (List Char × List Char)

/-- The overlap seeded from a flushed buffer `b`:
`b[-ov:]` when `len(b) > ov`, nothing otherwise. -/
def ovlFrom (ov : Nat) (b : List Char) : List Char :=
  if ov < b.length then takeLast ov b else []

def bStep (cs ov : Nat) (st : BState) (p : List Char) : BState :=
  if st.buf.length + p.length < cs then
    { st with buf := st.buf ++ p ++ sep }
  else
    let items := if pyStrip st.buf ≠ [] then st.items ++ [(st.buf, st.ovl)] else st.items
    { buf := ovlFrom ov st.buf ++ p ++ sep, ovl := ovlFrom ov st.buf, items := items }

def bRun (cs ov : Nat) (ps : List (List Char)) : List (List Char × List Char) :=
  let st := ps.foldl (bStep cs ov) { buf := [], ovl := [], items := [] }
  if pyStrip st.buf ≠ [] then st.items ++ [(st.buf, st.ovl)] else st.items

/-- The paragraphs that actually enter the accumulation loop: split on
blank lines, cleaned of page markers, blank ones skipped. -/
def keptParas (text : List Char) : List (List Char) :=
  ((pySplit text).map cleanPara).filter (fun p => pyStrip p ≠ [])

/-- The text contributed to the running buffer by one block of
paragraphs: each paragraph followed by the `"\n\n"` separator. -/
def blockText (bl : List (List Char)) : List Char :=
  (bl.map (fun p => p ++ sep)).flatten

/-- The non-overlap core of an instrumented chunk: its buffer with the
injected overlap removed. -/
def coreOf (it : List Char × List Char) : List Char :=
  it.1.drop it.2.length

/-- The paragraph-joined text: paragraphs joined by the blank-line
separator. -/
def joinParas : List (List Char) → List Char
  | [] => []
  | [p] => p
  | p :: q :: t => p ++ sep ++ joinParas (q :: t)

/-! ## Whitespace and blockText lemmas -/

theorem noWS_append (a b : List Char) : noWS (a ++ b) = noWS a ++ noWS b := by
  simp [noWS]

theorem noWS_sep : noWS sep = [] := rfl

theorem noWS_nil : noWS [] = [] := rfl

theorem noWS_reverse (s : List Char) : noWS s.reverse = (noWS s).reverse :=
  List.filter_reverse _ _

theorem noWS_eq_nil_iff (s : List Char) : noWS s = [] ↔ ∀ c ∈ s, isWS c := by
  unfold noWS
  rw [List.filter_eq_nil_iff]
  constructor
  · intro h c hc
    have := h c hc
    simpa using this
  · intro h c hc
    simpa using h c hc

theorem noWS_dropWhile (s : List Char) : noWS (s.dropWhile isWS) = noWS s := by
  conv_rhs => rw [← List.takeWhile_append_dropWhile (p := isWS) (l := s)]
  rw [noWS_append]
  have h : noWS (s.takeWhile isWS) = [] := by
    rw [noWS_eq_nil_iff]
    intro c hc
    exact List.mem_takeWhile_imp hc
  rw [h, List.nil_append]

theorem noWS_pyStrip (s : List Char) : noWS (pyStrip s) = noWS s := by
  unfold pyStrip
  rw [noWS_reverse, noWS_dropWhile, noWS_reverse, List.reverse_reverse, noWS_dropWhile]

theorem pyStrip_eq_nil_iff (s : List Char) : pyStrip s = [] ↔ noWS s = [] := by
  constructor
  · intro h
    rw [← noWS_pyStrip, h, noWS_nil]
  · intro h
    unfold pyStrip
    rw [List.reverse_eq_nil_iff, List.dropWhile_eq_nil_iff]
    intro c hc
    rw [List.mem_reverse] at hc
    rw [noWS_eq_nil_iff] at h
    exact h c ((List.dropWhile_sublist _).subset hc)

theorem blockText_nil : blockText [] = [] := rfl

theorem blockText_append (l₁ l₂ : List (List Char)) :
    blockText (l₁ ++ l₂) = blockText l₁ ++ blockText l₂ := by
  unfold blockText
  rw [List.map_append, List.flatten_append]

theorem blockText_cons (p : List Char) (t : List (List Char)) :
    blockText (p :: t) = p ++ sep ++ blockText t := by
  unfold blockText
  simp [List.append_assoc]

theorem blockText_singleton (p : List Char) : blockText [p] = p ++ sep := by
  rw [blockText_cons, blockText_nil, List.append_nil]

theorem blockText_mem_length {p : List Char} {bl : List (List Char)}
    (h : p ∈ bl) : p.length + 2 ≤ (blockText bl).length := by
  induction bl with
  | nil => simp at h
  | cons q t ih =>
    rw [blockText_cons]
    rcases List.mem_cons.mp h with h1 | h1
    · subst h1
      simp [sep]
    · have := ih h1
      simp only [List.length_append]
      omega

theorem blockText_eq_nil {bl : List (List Char)} (h : blockText bl = []) : bl = [] := by
  cases bl with
  | nil => rfl
  | cons q t =>
    exfalso
    rw [blockText_cons] at h
    have : (q ++ sep ++ blockText t).length = 0 := by rw [h]; rfl
    simp [sep] at this

theorem noWS_blockText (ps : List (List Char)) :
    noWS (blockText ps) = (ps.map noWS).flatten := by
  induction ps with
  | nil => rfl
  | cons p t ih =>
    rw [blockText_cons, noWS_append, noWS_append, noWS_sep, List.append_nil]
    simp [ih]

theorem noWS_joinParas (ps : List (List Char)) :
    noWS (joinParas ps) = (ps.map noWS).flatten := by
  match ps with
  | [] => rfl
  | [p] => simp [joinParas, noWS]
  | p :: q :: t =>
    rw [joinParas, noWS_append, noWS_append, noWS_sep, List.append_nil,
      noWS_joinParas (q :: t)]
    rfl

theorem blockText_flatten (bs : List (List (List Char))) :
    blockText bs.flatten = ((bs.map blockText)).flatten := by
  induction bs with
  | nil => rfl
  | cons b t ih =>
    rw [List.flatten_cons, blockText_append, ih, List.map_cons, List.flatten_cons]

theorem pyStrip_glue_ne {p : List Char} (hp : pyStrip p ≠ []) (a : List Char) :
    pyStrip (a ++ p ++ sep) ≠ [] := by
  rw [Ne, pyStrip_eq_nil_iff] at hp ⊢
  rw [noWS_append, noWS_append, noWS_sep, List.append_nil]
  intro h
  rcases List.append_eq_nil.mp h with ⟨-, h2⟩
  exact hp h2

/-! ## The loop invariant of the instrumented chunking run -/

/-- The invariant of the `create_chunks` accumulation loop over the
kept paragraphs `ps` consumed so far: the flushed buffers decompose
into their injected overlap followed by a block of whole paragraphs,
the blocks partition `ps`, oversized paragraphs sit in singleton
blocks, every flushed buffer has a non-blank strip, and each injected
overlap is exactly `ovlFrom` of the previously flushed buffer. -/
def BInv (cs ov : Nat) (ps : List (List Char)) (st : BState) : Prop :=
  (∃ (blocks : List (List (List Char))) (cur : List (List Char)),
    ps = blocks.flatten ++ cur ∧
    st.items.map coreOf = blocks.map blockText ∧
    st.buf = st.ovl ++ blockText cur ∧
    (∀ bl ∈ blocks, bl ≠ []) ∧
    (∀ bl ∈ blocks, ∀ p ∈ bl, cs ≤ p.length → bl = [p]) ∧
    (∀ p ∈ cur, cs ≤ p.length → cur = [p]) ∧
    (cur = [] → st.buf = [])) ∧
  (st.items = [] → st.ovl = []) ∧
  (∀ x ∈ st.items.getLast?, st.ovl = ovlFrom ov x.1) ∧
  List.Chain' (fun a b => b.2 = ovlFrom ov a.1) st.items ∧
  (∀ it ∈ st.items, pyStrip it.1 ≠ []) ∧
  (st.buf = [] ∨ pyStrip st.buf ≠ []) ∧
  (∀ it ∈ st.items, it.1 = it.2 ++ coreOf it) ∧
  (∀ x ∈ st.items.head?, x.2 = [])

theorem BInv_init (cs ov : Nat) : BInv cs ov [] { buf := [], ovl := [], items := [] } := by
  refine ⟨⟨[], [], rfl, rfl, rfl, ?_, ?_, ?_, ?_⟩, ?_, ?_, ?_, ?_, ?_, ?_, ?_⟩ <;> simp

theorem bStep_inv (cs ov : Nat) {ps : List (List Char)} {st : BState} {p : List Char}
    (hp : pyStrip p ≠ []) (hinv : BInv cs ov ps st) :
    BInv cs ov (ps ++ [p]) (bStep cs ov st p) := by
  obtain ⟨⟨blocks, cur, h1, h2, h3, h4, h5, h6, h7⟩, hB0, hB, hC, hD, hE, hF, hG⟩ := hinv
  unfold bStep
  by_cases hlt : st.buf.length + p.length < cs
  · rw [if_pos hlt]
    refine ⟨⟨blocks, cur ++ [p], ?_, h2, ?_, h4, h5, ?_, ?_⟩,
      hB0, hB, hC, hD, Or.inr (pyStrip_glue_ne hp st.buf), hF, hG⟩
    · rw [h1, List.append_assoc]
    · show st.buf ++ p ++ sep = st.ovl ++ blockText (cur ++ [p])
      rw [blockText_append, blockText_singleton, h3]
      simp [List.append_assoc]
    · intro q hq hcs
      exfalso
      rcases List.mem_append.mp hq with hq1 | hq1
      · have hlen := blockText_mem_length hq1
        have hb : (blockText cur).length ≤ st.buf.length := by
          rw [h3]; simp
        omega
      · rw [List.mem_singleton] at hq1
        subst hq1
        omega
    · intro hc
      exact absurd hc (by simp)
  · rw [if_neg hlt]
    by_cases hpush : pyStrip st.buf ≠ []
    · rw [if_pos hpush]
      have hcur : cur ≠ [] := by
        intro hc
        exact hpush (by rw [h7 hc]; rfl)
      have hcore : coreOf (st.buf, st.ovl) = blockText cur := by
        show st.buf.drop st.ovl.length = blockText cur
        rw [h3, List.drop_left]
      refine ⟨⟨blocks ++ [cur], [p], ?_, ?_, ?_, ?_, ?_, ?_, ?_⟩, ?_, ?_, ?_, ?_, ?_, ?_, ?_⟩
      · rw [h1, List.flatten_append]
        simp
      · show (st.items ++ [(st.buf, st.ovl)]).map coreOf = _
        rw [List.map_append, List.map_append, h2]
        simp [hcore]
      · show ovlFrom ov st.buf ++ p ++ sep = ovlFrom ov st.buf ++ blockText [p]
        rw [blockText_singleton, List.append_assoc]
      · intro bl hbl
        rcases List.mem_append.mp hbl with hb1 | hb1
        · exact h4 bl hb1
        · rw [List.mem_singleton] at hb1; subst hb1; exact hcur
      · intro bl hbl q hq hcs
        rcases List.mem_append.mp hbl with hb1 | hb1
        · exact h5 bl hb1 q hq hcs
        · rw [List.mem_singleton] at hb1; subst hb1; exact h6 q hq hcs
      · intro q hq hcs
        rw [List.mem_singleton] at hq
        subst hq; rfl
      · intro hc
        exact absurd hc (by simp)
      · intro habs
        exact absurd habs (by simp)
      · intro x hx
        rw [List.getLast?_concat] at hx
        rw [Option.mem_def, Option.some.injEq] at hx
        subst hx
        rfl
      · rw [List.chain'_append]
        refine ⟨hC, List.chain'_singleton _, ?_⟩
        intro x hx y hy
        rw [List.head?_cons, Option.mem_def, Option.some.injEq] at hy
        subst hy
        exact (hB x hx).symm ▸ rfl
      · intro it hit
        rcases List.mem_append.mp hit with hi1 | hi1
        · exact hD it hi1
        · rw [List.mem_singleton] at hi1; subst hi1; exact hpush
      · exact Or.inr (pyStrip_glue_ne hp _)
      · intro it hit
        rcases List.mem_append.mp hit with hi1 | hi1
        · exact hF it hi1
        · rw [List.mem_singleton] at hi1
          subst hi1
          rw [hcore, h3]
      · intro x hx
        cases hi : st.items with
        | nil =>
          rw [hi] at hx
          simp only [List.nil_append, List.head?_cons, Option.mem_def,
            Option.some.injEq] at hx
          subst hx
          exact hB0 hi
        | cons a t =>
          rw [hi] at hx
          simp only [List.cons_append, List.head?_cons, Option.mem_def,
            Option.some.injEq] at hx
          subst hx
          exact hG a (by rw [hi]; simp)
    · rw [if_neg hpush]
      rw [not_not] at hpush
      have hbuf : st.buf = [] := by
        rcases hE with he | he
        · exact he
        · exact absurd hpush he
      have hovl : st.ovl = [] := (List.append_eq_nil.mp (hbuf ▸ h3.symm)).1
      have hcur : cur = [] := by
        have := (List.append_eq_nil.mp (hbuf ▸ h3.symm)).2
        exact blockText_eq_nil this
      refine ⟨⟨blocks, [p], ?_, h2, ?_, h4, h5, ?_, ?_⟩, ?_, ?_, hC, hD, ?_, hF, hG⟩
      · rw [h1, hcur, List.append_nil]
      · show ovlFrom ov st.buf ++ p ++ sep = ovlFrom ov st.buf ++ blockText [p]
        rw [blockText_singleton, List.append_assoc]
      · intro q hq hcs
        rw [List.mem_singleton] at hq
        subst hq; rfl
      · intro hc
        exact absurd hc (by simp)
      · intro hi
        show ovlFrom ov st.buf = []
        rw [hbuf]
        simp [ovlFrom]
      · intro x hx
        show ovlFrom ov st.buf = ovlFrom ov x.1
        rw [hbuf] at *
        have := hB x hx
        rw [hovl] at this
        rw [← this]
        simp [ovlFrom]
      · exact Or.inr (pyStrip_glue_ne hp _)

theorem foldl_bStep_inv (cs ov : Nat) (ps₂ : List (List Char)) :
    ∀ (ps₁ : List (List Char)) (st : BState),
      (∀ p ∈ ps₂, pyStrip p ≠ []) → BInv cs ov ps₁ st →
      BInv cs ov (ps₁ ++ ps₂) (ps₂.foldl (bStep cs ov) st) := by
  induction ps₂ with
  | nil =>
    intro ps₁ st _ hinv
    simpa using hinv
  | cons p t ih =>
    intro ps₁ st h hinv
    have h1 := bStep_inv cs ov (h p (List.mem_cons_self p t)) hinv
    have h2 := ih (ps₁ ++ [p]) (bStep cs ov st p)
      (fun q hq => h q (List.mem_cons_of_mem p hq)) h1
    simpa [List.append_assoc] using h2

/-- Master specification of the instrumented chunking run over the
kept paragraphs: the chunk cores partition the paragraphs into
non-empty blocks (no paragraph is ever split across a boundary),
oversized paragraphs get singleton blocks, every buffer decomposes as
injected-overlap ++ core, the injected overlap of each chunk is
`ovlFrom` of the preceding chunk's buffer, the first chunk has no
injected overlap, and every buffer strip is non-blank. -/
theorem bRun_spec (cs ov : Nat) (ps : List (List Char))
    (hk : ∀ p ∈ ps, pyStrip p ≠ []) :
    ∃ blocks : List (List (List Char)),
      ps = blocks.flatten ∧
      (bRun cs ov ps).map coreOf = blocks.map blockText ∧
      (∀ bl ∈ blocks, bl ≠ []) ∧
      (∀ bl ∈ blocks, ∀ p ∈ bl, cs ≤ p.length → bl = [p]) ∧
      List.Chain' (fun a b => b.2 = ovlFrom ov a.1) (bRun cs ov ps) ∧
      (∀ it ∈ bRun cs ov ps, pyStrip it.1 ≠ []) ∧
      (∀ it ∈ bRun cs ov ps, it.1 = it.2 ++ coreOf it) ∧
      (∀ x ∈ (bRun cs ov ps).head?, x.2 = []) := by
  have hinv := foldl_bStep_inv cs ov ps [] { buf := [], ovl := [], items := [] }
    hk (BInv_init cs ov)
  rw [List.nil_append] at hinv
  obtain ⟨⟨blocks, cur, h1, h2, h3, h4, h5, h6, h7⟩, hB0, hB, hC, hD, hE, hF, hG⟩ := hinv
  unfold bRun
  by_cases hpush :
    pyStrip ((ps.foldl (bStep cs ov) { buf := [], ovl := [], items := [] }).buf) ≠ []
  · rw [if_pos hpush]
    set st := ps.foldl (bStep cs ov) { buf := [], ovl := [], items := [] } with hst
    have hcur : cur ≠ [] := by
      intro hc
      exact hpush (by rw [h7 hc]; rfl)
    have hcore : coreOf (st.buf, st.ovl) = blockText cur := by
      show st.buf.drop st.ovl.length = blockText cur
      rw [h3, List.drop_left]
    refine ⟨blocks ++ [cur], ?_, ?_, ?_, ?_, ?_, ?_, ?_, ?_⟩
    · rw [h1, List.flatten_append]
      simp
    · rw [List.map_append, List.map_append, h2]
      simp [hcore]
    · intro bl hbl
      rcases List.mem_append.mp hbl with hb1 | hb1
      · exact h4 bl hb1
      · rw [List.mem_singleton] at hb1; subst hb1; exact hcur
    · intro bl hbl q hq hcs
      rcases List.mem_append.mp hbl with hb1 | hb1
      · exact h5 bl hb1 q hq hcs
      · rw [List.mem_singleton] at hb1; subst hb1; exact h6 q hq hcs
    · rw [List.chain'_append]
      refine ⟨hC, List.chain'_singleton _, ?_⟩
      intro x hx y hy
      rw [List.head?_cons, Option.mem_def, Option.some.injEq] at hy
      subst hy
      exact (hB x hx).symm ▸ rfl
    · intro it hit
      rcases List.mem_append.mp hit with hi1 | hi1
      · exact hD it hi1
      · rw [List.mem_singleton] at hi1; subst hi1; exact hpush
    · intro it hit
      rcases List.mem_append.mp hit with hi1 | hi1
      · exact hF it hi1
      · rw [List.mem_singleton] at hi1
        subst hi1
        rw [hcore, h3]
    · intro x hx
      cases hi : st.items with
      | nil =>
        rw [hi] at hx
        simp only [List.nil_append, List.head?_cons, Option.mem_def,
          Option.some.injEq] at hx
        subst hx
        exact hB0 hi
      | cons a t =>
        rw [hi] at hx
        simp only [List.cons_append, List.head?_cons, Option.mem_def,
          Option.some.injEq] at hx
        subst hx
        exact hG a (by rw [hi]; simp)
  · rw [if_neg hpush]
    set st := ps.foldl (bStep cs ov) { buf := [], ovl := [], items := [] } with hst
    rw [not_not] at hpush
    have hbuf : st.buf = [] := by
      rcases hE with he | he
      · exact he
      · exact absurd hpush he
    have hcur : cur = [] := by
      have := (List.append_eq_nil.mp (hbuf ▸ h3.symm)).2
      exact blockText_eq_nil this
    refine ⟨blocks, ?_, h2, h4, h5, hC, hD, hF, hG⟩
    rw [h1, hcur, List.append_nil]

/-! ## Agreement of `create_chunks` with the instrumented run -/

/-- The relation between the full loop state and the instrumented
state: same running buffer, and the emitted chunk texts are the strips
of the flushed buffers. -/
def Agrees (st : CState) (bst : BState) : Prop :=
  st.cur = bst.buf ∧
  st.out.map (fun c => c.text) = bst.items.map (fun it => pyStrip it.1)

theorem ovlFrom_branch (ov : Nat) (b x y : List Char) :
    (if ov < b.length then takeLast ov b ++ x ++ y else x ++ y) = ovlFrom ov b ++ x ++ y := by
  unfold ovlFrom
  by_cases hov : ov < b.length
  · rw [if_pos hov, if_pos hov]
  · rw [if_neg hov, if_neg hov, List.nil_append]

theorem chunkStep_agrees (cs ov : Nat) (st : CState) (bst : BState)
    (p0 : List Char) (h : Agrees st bst) :
    Agrees (chunkStep cs ov st p0)
      (if pyStrip (cleanPara p0) = [] then bst else bStep cs ov bst (cleanPara p0)) := by
  obtain ⟨hcur, hout⟩ := h
  by_cases hblank : pyStrip (cleanPara p0) = []
  · rw [if_pos hblank]
    constructor
    · simp [chunkStep, hblank, hcur]
    · simp [chunkStep, hblank, hout]
  · rw [if_neg hblank]
    by_cases hlt : bst.buf.length + (cleanPara p0).length < cs
    · have hlt' : st.cur.length + (cleanPara p0).length < cs := by rw [hcur]; exact hlt
      constructor
      · simp [chunkStep, bStep, hblank, hlt, hlt', hcur]
      · simp [chunkStep, bStep, hblank, hlt, hlt', hout]
    · have hlt' : ¬ st.cur.length + (cleanPara p0).length < cs := by rw [hcur]; exact hlt
      constructor
      · show (chunkStep cs ov st p0).cur = (bStep cs ov bst (cleanPara p0)).buf
        simp only [chunkStep, bStep, if_neg hblank, if_neg hlt, if_neg hlt']
        rw [hcur, ovlFrom_branch]
      · show (chunkStep cs ov st p0).out.map (fun c => c.text) =
          (bStep cs ov bst (cleanPara p0)).items.map (fun it => pyStrip it.1)
        simp only [chunkStep, bStep, if_neg hblank, if_neg hlt, if_neg hlt']
        by_cases hps : pyStrip bst.buf ≠ []
        · have hps' : pyStrip st.cur ≠ [] := by rw [hcur]; exact hps
          rw [if_pos hps, if_pos hps', List.map_append, List.map_append, hout, hcur]
          rfl
        · have hps' : ¬ pyStrip st.cur ≠ [] := by rw [hcur]; exact hps
          rw [if_neg hps, if_neg hps']
          exact hout

theorem foldl_chunkStep_agrees (cs ov : Nat) (ps : List (List Char)) :
    ∀ (st : CState) (bst : BState), Agrees st bst →
      Agrees (ps.foldl (chunkStep cs ov) st)
        ((((ps.map cleanPara).filter (fun p => pyStrip p ≠ [])).foldl (bStep cs ov)) bst) := by
  induction ps with
  | nil => intro st bst h; exact h
  | cons p t ih =>
    intro st bst h
    have hstep := chunkStep_agrees cs ov st bst p h
    by_cases hblank : pyStrip (cleanPara p) = []
    · rw [if_pos hblank] at hstep
      have := ih (chunkStep cs ov st p) bst hstep
      simpa [List.filter_cons, hblank] using this
    · rw [if_neg hblank] at hstep
      have := ih (chunkStep cs ov st p) (bStep cs ov bst (cleanPara p)) hstep
      simpa [List.filter_cons, hblank] using this

/-- The texts of the chunks emitted by `create_chunks` are exactly the
strips of the buffers of the instrumented run over the kept
paragraphs. -/
theorem create_chunks_texts_eq (text : List Char) :
    (create_chunks text).map (fun c => c.text) =
      (bRun CHUNK_SIZE CHUNK_OVERLAP (keptParas text)).map (fun it => pyStrip it.1) := by
  by_cases htext : text = []
  · subst htext
    rfl
  · unfold create_chunks bRun keptParas
    rw [if_neg htext]
    have hagree := foldl_chunkStep_agrees CHUNK_SIZE CHUNK_OVERLAP (pySplit text)
      { cur := [], page := CHAPTER_10_START_PAGE, cid := 0, out := [] }
      { buf := [], ovl := [], items := [] } ⟨rfl, rfl⟩
    obtain ⟨hcur, hout⟩ := hagree
    set st := (pySplit text).foldl (chunkStep CHUNK_SIZE CHUNK_OVERLAP)
      { cur := [], page := CHAPTER_10_START_PAGE, cid := 0, out := [] } with hst
    set bst := (((pySplit text).map cleanPara).filter (fun p => pyStrip p ≠ [])).foldl
      (bStep CHUNK_SIZE CHUNK_OVERLAP) { buf := [], ovl := [], items := [] } with hbst
    by_cases hps : pyStrip st.cur ≠ []
    · rw [if_pos hps, if_pos (hcur ▸ hps), List.map_append, List.map_append, hout, hcur]
      rfl
    · rw [if_neg hps, if_neg (hcur ▸ hps)]
      exact hout

/-- The instrumented chunking run of `create_chunks` at the configured
chunk size and overlap: one `(buffer, injected overlap)` pair per
emitted chunk. -/
def chunkRuns (text : List Char) : List (List Char × List Char) :=
  bRun CHUNK_SIZE CHUNK_OVERLAP (keptParas text)

theorem keptParas_kept (text : List Char) :
    ∀ p ∈ keptParas text, pyStrip p ≠ [] := by
  intro p hp
  have := List.of_mem_filter hp
  simpa using this

/-- `bRun_spec` specialised to the configuration of `create_chunks`. -/
theorem chunkRuns_spec (text : List Char) :
    ∃ blocks : List (List (List Char)),
      keptParas text = blocks.flatten ∧
      (chunkRuns text).map coreOf = blocks.map blockText ∧
      (∀ bl ∈ blocks, bl ≠ []) ∧
      (∀ bl ∈ blocks, ∀ p ∈ bl, CHUNK_SIZE ≤ p.length → bl = [p]) ∧
      List.Chain' (fun a b => b.2 = ovlFrom CHUNK_OVERLAP a.1) (chunkRuns text) ∧
      (∀ it ∈ chunkRuns text, pyStrip it.1 ≠ []) ∧
      (∀ it ∈ chunkRuns text, it.1 = it.2 ++ coreOf it) ∧
      (∀ x ∈ (chunkRuns text).head?, x.2 = []) :=
  bRun_spec CHUNK_SIZE CHUNK_OVERLAP (keptParas text) (keptParas_kept text)

theorem takeLast_length_of_le {n : Nat} {l : List Char} (h : n ≤ l.length) :
    (takeLast n l).length = n := by
  unfold takeLast
  rw [List.length_drop]
  omega

/-! ## Whitespace-only input produces no kept paragraphs -/

theorem pySplitAux_chars (acc s : List Char) :
    ∀ p ∈ pySplitAux acc s, ∀ c ∈ p, c ∈ acc ∨ c ∈ s := by
  induction acc, s using pySplitAux.induct with
  | case1 acc =>
    intro p hp c hc
    rw [pySplitAux.eq_1, List.mem_singleton] at hp
    subst hp
    exact Or.inl (List.mem_reverse.mp hc)
  | case2 acc rest ih =>
    intro p hp c hc
    rw [pySplitAux.eq_2] at hp
    rcases List.mem_cons.mp hp with hp1 | hp1
    · subst hp1
      exact Or.inl (List.mem_reverse.mp hc)
    · rcases ih p hp1 c hc with h1 | h1
      · simp at h1
      · exact Or.inr (by simp [h1])
  | case3 acc c0 rest hne ih =>
    intro p hp c hc
    rw [pySplitAux.eq_3 acc c0 rest hne] at hp
    rcases ih p hp c hc with h1 | h1
    · rcases List.mem_cons.mp h1 with h2 | h2
      · subst h2
        exact Or.inr (List.mem_cons_self c rest)
      · exact Or.inl h2
    · exact Or.inr (List.mem_cons_of_mem c0 h1)

theorem markerAt_allWS {s : List Char} (h : ∀ c ∈ s, isWS c) :
    markerAt s = none := by
  match s with
  | [] => rfl
  | [c] => rfl
  | c1 :: c2 :: rest =>
    have h1 : ¬ (c1 = '[' ∧ c2 = '第') := by
      intro hand
      have := h c1 (List.mem_cons_self c1 _)
      rw [hand.1] at this
      simp [isWS] at this
    simp [markerAt, h1]

theorem searchMarker_allWS {s : List Char} (h : ∀ c ∈ s, isWS c) :
    searchMarker s = none := by
  induction s with
  | nil => rfl
  | cons c rest ih =>
    unfold searchMarker
    rw [markerAt_allWS h]
    exact ih (fun d hd => h d (List.mem_cons_of_mem c hd))

theorem keptParas_of_allWS {text : List Char} (h : noWS text = []) :
    keptParas text = [] := by
  rw [noWS_eq_nil_iff] at h
  unfold keptParas
  rw [List.filter_eq_nil_iff]
  intro p hp
  rw [List.mem_map] at hp
  obtain ⟨q, hq, hpq⟩ := hp
  have hqw : ∀ c ∈ q, isWS c := by
    intro c hc
    rcases pySplitAux_chars [] text q hq c hc with h1 | h1
    · simp at h1
    · exact h c h1
  have hclean : cleanPara q = q := by
    unfold cleanPara
    rw [searchMarker_allWS hqw]
    rfl
  subst hpq
  rw [hclean]
  simp only [ne_eq, decide_not, Bool.not_eq_true', decide_eq_false_iff_not, not_not]
  rw [pyStrip_eq_nil_iff, noWS_eq_nil_iff]
  exact hqw

/-- From the overlap-link chain and the buffer decomposition, adjacent
buffers agree on the overlap region: when the earlier buffer exceeds
the overlap bound, the later buffer starts with the earlier buffer's
last `ov` characters. -/
theorem chain_take_of_chain_ovl (ov : Nat) (l : List (List Char × List Char))
    (hc : List.Chain' (fun a b => b.2 = ovlFrom ov a.1) l)
    (hd : ∀ it ∈ l, it.1 = it.2 ++ coreOf it) :
    List.Chain' (fun a b => ov < a.1.length →
      b.1.take ov = takeLast ov a.1) l := by
  induction l with
  | nil => exact List.chain'_nil
  | cons a t ih =>
    obtain ⟨hhead, htail⟩ := List.chain'_cons'.mp hc
    refine List.chain'_cons'.mpr
      ⟨?_, ih htail (fun it hit => hd it (List.mem_cons_of_mem a hit))⟩
    intro b hb hlen
    have hov := hhead b hb
    have hdb := hd b (List.mem_cons_of_mem a (List.mem_of_mem_head? hb))
    have hovl : ovlFrom ov a.1 = takeLast ov a.1 := by
      unfold ovlFrom
      rw [if_pos hlen]
    have hb2len : b.2.length = ov := by
      rw [hov, hovl]
      exact takeLast_length_of_le (Nat.le_of_lt hlen)
    calc b.1.take ov = (b.2 ++ coreOf b).take ov := by rw [← hdb]
      _ = (b.2 ++ coreOf b).take b.2.length := by rw [hb2len]
      _ = b.2 := List.take_left _ _
      _ = takeLast ov a.1 := by rw [hov, hovl]

/-! ## Claim theorems about the chunker -/

/-- C9: every chunk emitted by `create_chunks` has non-empty text after
stripping (blank paragraphs are skipped and never produce empty
chunks), and an empty or whitespace-only input text yields the empty
chunk sequence. -/
theorem claim_C9_nonempty_chunks (text : List Char) :
    (∀ c ∈ create_chunks text, pyStrip c.text ≠ [] ∧ c.text ≠ []) ∧
    (noWS text = [] → create_chunks text = []) := by
  constructor
  · intro c hc
    have hmap : c.text ∈ (create_chunks text).map (fun c => c.text) :=
      List.mem_map_of_mem _ hc
    rw [create_chunks_texts_eq] at hmap
    rw [List.mem_map] at hmap
    obtain ⟨it, hit, htext⟩ := hmap
    obtain ⟨blocks, -, -, -, -, -, hstripAll, -, -⟩ := chunkRuns_spec text
    have hstrip := hstripAll it hit
    have h1 : pyStrip c.text ≠ [] := by
      rw [← htext, Ne, pyStrip_eq_nil_iff, noWS_pyStrip, ← pyStrip_eq_nil_iff]
      exact hstrip
    exact ⟨h1, fun hnil => h1 (by rw [hnil]; rfl)⟩
  · intro hws
    have hkept := keptParas_of_allWS hws
    have heq := create_chunks_texts_eq text
    rw [hkept] at heq
    have hnil : bRun CHUNK_SIZE CHUNK_OVERLAP [] = [] := rfl
    rw [hnil] at heq
    simpa using heq

theorem claim_C9_witness : create_chunks " \n ".data = [] :=
  (claim_C9_nonempty_chunks " \n ".data).2 (by decide)

/-- C2: the chunk texts are the strips of the instrumented buffers,
each buffer is its injected overlap followed by its core, the first
chunk has no injected overlap, and the concatenation of the cores
reconstructs the paragraph-joined page-marker-free text modulo
whitespace normalization. -/
theorem claim_C2_chunk_coverage (text : List Char) :
    (create_chunks text).map (fun c => c.text) =
      (chunkRuns text).map (fun it => pyStrip it.1) ∧
    (∀ it ∈ chunkRuns text, it.1 = it.2 ++ coreOf it) ∧
    (∀ x ∈ (chunkRuns text).head?, x.2 = []) ∧
    noWS (((chunkRuns text).map coreOf).flatten) =
      noWS (joinParas (keptParas text)) := by
  obtain ⟨blocks, h1, h2, h3, h4, h5, h6, h7, h8⟩ := chunkRuns_spec text
  refine ⟨create_chunks_texts_eq text, h7, h8, ?_⟩
  rw [h2, ← blockText_flatten, ← h1, noWS_blockText, noWS_joinParas]

/-- C8: chunk boundaries fall only between whole kept paragraphs (the
chunk cores partition the kept paragraphs into non-empty consecutive
blocks), and a paragraph whose length reaches `CHUNK_SIZE` always forms
its own singleton block — it is never split mid-paragraph. -/
theorem claim_C8_paragraph_atomicity (text : List Char) :
    ∃ blocks : List (List (List Char)),
      keptParas text = blocks.flatten ∧
      (∀ bl ∈ blocks, bl ≠ []) ∧
      (∀ bl ∈ blocks, ∀ p ∈ bl, CHUNK_SIZE ≤ p.length → bl = [p]) ∧
      (chunkRuns text).map coreOf = blocks.map blockText ∧
      (create_chunks text).map (fun c => c.text) =
        (chunkRuns text).map (fun it => pyStrip it.1) := by
  obtain ⟨blocks, h1, h2, h3, h4, -, -, -, -⟩ := chunkRuns_spec text
  exact ⟨blocks, h1, h3, h4, h2, create_chunks_texts_eq text⟩

/-- C1 (amended): the overlap link holds at the pre-strip buffer level:
each chunk's injected overlap is `ovlFrom` of the preceding chunk's
buffer (so it is injected exactly when the preceding buffer — the
chunk's text before `strip()`, ending in the paragraph separator —
exceeds `CHUNK_OVERLAP`), adjacent buffers agree verbatim on the
overlap region, each buffer is its overlap followed by its core, the
first chunk has no injected overlap, and the emitted chunk texts are
the strips of the buffers. -/
theorem claim_C1_overlap_amended (text : List Char) :
    List.Chain' (fun a b => b.2 = ovlFrom CHUNK_OVERLAP a.1) (chunkRuns text) ∧
    List.Chain' (fun a b => CHUNK_OVERLAP < a.1.length →
      b.1.take CHUNK_OVERLAP = takeLast CHUNK_OVERLAP a.1) (chunkRuns text) ∧
    (∀ it ∈ chunkRuns text, it.1 = it.2 ++ coreOf it) ∧
    (∀ x ∈ (chunkRuns text).head?, x.2 = []) ∧
    (create_chunks text).map (fun c => c.text) =
      (chunkRuns text).map (fun it => pyStrip it.1) := by
  obtain ⟨blocks, h1, h2, h3, h4, h5, h6, h7, h8⟩ := chunkRuns_spec text
  exact ⟨h5, chain_take_of_chain_ovl _ _ h5 h7, h7, h8, create_chunks_texts_eq text⟩

/-- The input refuting the text-level overlap claim: a 200-character
paragraph followed by a 300-character paragraph. -/
def c1Input : List Char :=
  List.replicate 200 'A' ++ sep ++ List.replicate 300 'B'

set_option maxRecDepth 100000 in
/-- C1 (counterexample): on `c1Input`, `create_chunks` emits two
chunks; the first chunk's text is longer than `CHUNK_OVERLAP`, yet the
first `CHUNK_OVERLAP` characters of the second chunk's text (98 `A`s
then `"\n\n"`) differ from the last `CHUNK_OVERLAP` characters of the
first chunk's text (100 `A`s): the overlap is cut from the pre-strip
buffer, whose trailing paragraph separator was removed from the stored
text by `strip()`. -/
theorem claim_C1_counterexample :
    (create_chunks c1Input).length = 2 ∧
    CHUNK_OVERLAP < ((create_chunks c1Input).getD 0 (mkChunk [] 0 0)).text.length ∧
    ((create_chunks c1Input).getD 1 (mkChunk [] 0 0)).text.take CHUNK_OVERLAP ≠
      takeLast CHUNK_OVERLAP ((create_chunks c1Input).getD 0 (mkChunk [] 0 0)).text := by
  decide

/-! ## The RAG engine (`RAGEngine` in `rag_engine.py`)

External calls are passed in as explicit outcome functions: `embedF`
models `get_embedding` (an `Except` carrying the exception message on
failure), `queryF` models `collection.query` plus the result-formatting
loop, and `genF` models the generation call
`zhipu_client.chat.completions.create`.  The Chroma collection is a
`List Entry`; `collection.count()` is its length. -/

/-- A persisted Chroma entry: one id/document/metadata/embedding
quadruple. -/
structure Entry where
  eid : List Char
  document : List Char
  metadata : ChunkMeta
  embedding : List Int
deriving DecidableEq, Repr

/-- A formatted retrieval hit `{"text", "metadata", "distance"}`.  The
distance float is only passed through, never computed with, so it is
modelled by an opaque `Int`. -/
structure DocHit where
  text : List Char
  metadata : ChunkMeta
  distance : Int
deriving DecidableEq, Repr

/-- The `{"answer", "sources"}` dict returned by `generate_answer` and
`ask`. -/
structure Citation where
  pdf_page : PageVal
  book_page : PageVal
  preview : List Char
deriving DecidableEq, Repr

structure QAResult where
  answer : List Char
  sources : List Citation
deriving DecidableEq, Repr

/-! ### `RAGEngine.add_documents` -/

/-- The id `f"chunk_{CHAPTER_NUMBER}_{i}"` given to the chunk at
position `i` of the batch. -/
def chunkIdStr (i : Nat) : List Char :=
  "chunk_".data ++ (Nat.repr CHAPTER_NUMBER).data ++ "_".data ++ (Nat.repr i).data

/-- The four parallel accumulator lists of the `add_documents` loop. -/
structure ALState where
  ids : List (List Char)
  documents : List (List Char)
  metadatas : List ChunkMeta
  embeddings : List (List Int)

/-- One iteration of the `for i, chunk in enumerate(chunks)` loop of
`add_documents`: append id/document/metadata, try the embedding call,
and pop the three appended values again if it raised. -/
def add_step (embedF : Nat → List Char → Option (List Int))
    (st : ALState) (p : Nat × Chunk) : ALState :=
  let ids := st.ids ++ [chunkIdStr p.1]
  let documents := st.documents ++ [p.2.text]
  let metadatas := st.metadatas ++ [p.2.metadata]
  match embedF p.1 p.2.text with
  | some e =>
    { ids := ids, documents := documents, metadatas := metadatas,
      embeddings := st.embeddings ++ [e] }
  | none =>
    { ids := ids.dropLast, documents := documents.dropLast,
      metadatas := metadatas.dropLast, embeddings := st.embeddings }

/-- `collection.add(ids, documents, metadatas, embeddings)`: zip the
four parallel lists into persisted entries. -/
def mkEntries : List (List Char) → List (List Char) → List ChunkMeta →
    List (List Int) → List Entry
  | i :: is, d :: ds, m :: ms, e :: es =>
    { eid := i, document := d, metadata := m, embedding := e } :: mkEntries is ds ms es
  | _, _, _, _ => []

/-- The observable outcome of `add_documents`: the collection
afterwards, whether `collection.add` was invoked at all, and the
Python return value. -/
structure AddResult where
  col : List Entry
  addCalled : Bool
  ret : Option Nat
deriving DecidableEq, Repr

/-- `RAGEngine.add_documents(chunks)` over collection `col`, with the
outcome of the `i`-th embedding call given by `embedF i text` (`none`
models a raised exception).  The Python function returns `None` on
every path. -/
def add_documents (embedF : Nat → List Char → Option (List Int))
    (col : List Entry) (chunks : List Chunk) : AddResult :=
  if chunks.isEmpty then { col := col, addCalled := false, ret := none }
  else
    let st := (chunks.enum).foldl (add_step embedF) ⟨[], [], [], []⟩
    if st.ids.isEmpty then { col := col, addCalled := false, ret := none }
    else
      { col := col ++ mkEntries st.ids st.documents st.metadatas st.embeddings,
        addCalled := true, ret := none }

/-- The entry persisted for an indexed chunk, if its embedding call
succeeded. -/
def entryOf (embedF : Nat → List Char → Option (List Int))
    (p : Nat × Chunk) : Option Entry :=
  (embedF p.1 p.2.text).map (fun e =>
    { eid := chunkIdStr p.1, document := p.2.text,
      metadata := p.2.metadata, embedding := e })

/-- Specification-level view of a batch: exactly the chunks whose
embedding succeeded, in original order, with ids from their original
positions. -/
def persistedEntries (embedF : Nat → List Char → Option (List Int))
    (chunks : List Chunk) : List Entry :=
  (chunks.enum).filterMap (entryOf embedF)

/-! ### `RAGEngine.search`, `generate_answer`, `ask` -/

/-- The page-numbering offset constant of `generate_answer`. -/
def PAGE_OFFSET : Int := 16

/-- `book_page = pdf_page - PAGE_OFFSET if isinstance(pdf_page, int)
else "未知"`. -/
def bookPageOf : PageVal → PageVal
  | PageVal.int n => PageVal.int (n - PAGE_OFFSET)
  | PageVal.str _ => PageVal.str "未知".data

/-- Python `str()` of a metadata page value, as interpolated into the
context block. -/
def showPage : PageVal → List Char
  | PageVal.int n => (Int.repr n).data
  | PageVal.str s => s

/-- The source dict built for one retrieved chunk:
`{"pdf_page", "book_page", "preview"}` with
`preview = doc["text"][:100] + "..."`. -/
def citationOf (d : DocHit) : Citation :=
  { pdf_page := d.metadata.page
    book_page := bookPageOf d.metadata.page
    preview := d.text.take 100 ++ "...".data }

/-- The numbered context block for one retrieved chunk:
`f"[参考资料{i+1}，PDF第{pdf_page}页/书中P{book_page}]\n{doc['text']}"`. -/
def contextPart (i : Nat) (d : DocHit) : List Char :=
  "[参考资料".data ++ (Nat.repr (i + 1)).data ++ "，PDF第".data ++
    showPage d.metadata.page ++ "页/书中P".data ++
    showPage (bookPageOf d.metadata.page) ++ "]\n".data ++ d.text

/-- `context = "\n\n".join(context_parts)`. -/
def contextOf (docs : List DocHit) : List Char :=
  joinParas ((docs.enum).map (fun p => contextPart p.1 p.2))

/-- The user message assembled by `generate_answer`. -/
def user_message (query context : List Char) : List Char :=
  "请基于以下参考资料回答问题。回答时请：\n1. 准确引用资料内容\n2. 在回答中标注引用来源（如\"根据第X页...\"）\n3. 如果资料中没有相关信息，请诚实告知\n\n参考资料：\n".data
    ++ context ++ "\n\n问题：".data ++ query ++ "\n\n请给出详细、准确的回答：".data

/-- The fixed answer substituted when the generation call raises. -/
def genFailAnswer (e : List Char) : List Char :=
  "❌ 生成回答失败: ".data ++ e

/-- `RAGEngine.generate_answer(query, context_docs)`: build citations
and context, issue the generation call (outcome `genF` applied to the
assembled user message), and degrade to an error-describing answer
with the already-computed sources if it raises. -/
def generate_answer (clientOk : Bool)
    (genF : List Char → Except (List Char) (List Char))
    (query : List Char) (context_docs : List DocHit) : QAResult :=
  if !clientOk then
    { answer := "❌ 智谱AI客户端未初始化，请设置API Key".data, sources := [] }
  else
    let sources := context_docs.map citationOf
    match genF (user_message query (contextOf context_docs)) with
    | Except.ok ans => { answer := ans, sources := sources }
    | Except.error e => { answer := genFailAnswer e, sources := sources }

/-- `RAGEngine.search(query, top_k)`: empty collection returns `[]`
before any external call; any exception inside the `try` block (the
query-embedding call or the Chroma query/formatting) is caught and
also yields `[]`. -/
def search (embedF : List Char → Except (List Char) (List Int))
    (queryF : List Int → Nat → Except (List Char) (List DocHit))
    (col : List Entry) (query : List Char) (top_k : Nat) : List DocHit :=
  if col.length = 0 then []
  else
    match embedF query with
    | Except.error _ => []
    | Except.ok qv =>
      match queryF qv top_k with
      | Except.error _ => []
      | Except.ok hits => hits

/-- The fixed no-knowledge fallback answer of `RAGEngine.ask`. -/
def noKnowledgeAnswer : List Char :=
  "抱歉，知识库中没有找到相关内容。请确保已经初始化知识库。".data

/-- `RAGEngine.ask(question)`: retrieve with the default `TOP_K`; if
nothing came back, return the fixed fallback with empty sources, else
synthesize. -/
def ask (clientOk : Bool)
    (embedF : List Char → Except (List Char) (List Int))
    (queryF : List Int → Nat → Except (List Char) (List DocHit))
    (genF : List Char → Except (List Char) (List Char))
    (col : List Entry) (question : List Char) : QAResult :=
  let docs := search embedF queryF col question TOP_K
  if docs = [] then { answer := noKnowledgeAnswer, sources := [] }
  else generate_answer clientOk genF question docs

/-! ## Refinement of the `add_documents` loop -/

theorem foldl_add_step (embedF : Nat → List Char → Option (List Int))
    (l : List (Nat × Chunk)) :
    ∀ st : ALState,
      l.foldl (add_step embedF) st =
        { ids := st.ids ++ (l.filterMap (entryOf embedF)).map (fun e => e.eid),
          documents := st.documents ++ (l.filterMap (entryOf embedF)).map (fun e => e.document),
          metadatas := st.metadatas ++ (l.filterMap (entryOf embedF)).map (fun e => e.metadata),
          embeddings := st.embeddings ++ (l.filterMap (entryOf embedF)).map (fun e => e.embedding) } := by
  induction l with
  | nil =>
    intro st
    simp
  | cons p t ih =>
    intro st
    rw [List.foldl_cons, ih]
    cases h : embedF p.1 p.2.text with
    | some e =>
      simp [add_step, entryOf, List.filterMap_cons, h, List.append_assoc]
    | none =>
      simp [add_step, entryOf, List.filterMap_cons, h, List.dropLast_concat]

theorem mkEntries_maps (E : List Entry) :
    mkEntries (E.map (fun e => e.eid)) (E.map (fun e => e.document))
      (E.map (fun e => e.metadata)) (E.map (fun e => e.embedding)) = E := by
  induction E with
  | nil => rfl
  | cons e t ih =>
    simp [mkEntries, ih]

/-- `add_documents` refines the clean specification: the collection is
extended by exactly the successfully embedded chunks, and the Python
return value is `None` on every path. -/
theorem add_documents_spec (embedF : Nat → List Char → Option (List Int))
    (col : List Entry) (chunks : List Chunk) :
    (add_documents embedF col chunks).col = col ++ persistedEntries embedF chunks ∧
    (add_documents embedF col chunks).ret = none := by
  unfold add_documents
  by_cases hc : chunks.isEmpty
  · rw [if_pos hc]
    have hnil : chunks = [] := by
      cases chunks with
      | nil => rfl
      | cons a t => simp [List.isEmpty] at hc
    subst hnil
    simp [persistedEntries]
  · rw [if_neg hc]
    rw [foldl_add_step]
    simp only [List.nil_append]
    by_cases hids : ((chunks.enum.filterMap (entryOf embedF)).map (fun e => e.eid)).isEmpty
    · rw [if_pos hids]
      have hE : chunks.enum.filterMap (entryOf embedF) = [] := by
        cases hE : chunks.enum.filterMap (entryOf embedF) with
        | nil => rfl
        | cons a t => rw [hE] at hids; simp [List.isEmpty] at hids
      unfold persistedEntries
      rw [hE]
      simp
    · rw [if_neg hids]
      refine ⟨?_, rfl⟩
      rw [mkEntries_maps]
      rfl

/-! ## Claim theorems about the RAG engine -/

/-- The embedding-outcome function of the claim's concrete scenario:
the calls at batch positions 3 and 7 raise, all others succeed. -/
def failAt37 : Nat → List Char → Option (List Int) := fun i _ =>
  if i = 3 ∨ i = 7 then none else some [0]

/-- A sample chunk used in concrete scenarios. -/
def sampleChunk : Chunk := mkChunk "t".data 419 0

/-- C3: `add_documents` persists exactly the chunks whose embedding
call succeeded, in original order with original position-based ids
(`persistedEntries` is that order/id-preserving filter), the count
grows by the number of survivors, and a batch of 10 with failures at
positions 3 and 7 persists exactly 8 entries. -/
theorem claim_C3_partial_failure (embedF : Nat → List Char → Option (List Int))
    (col : List Entry) (chunks : List Chunk) :
    (add_documents embedF col chunks).col = col ++ persistedEntries embedF chunks ∧
    (add_documents embedF col chunks).col.length =
      col.length + (persistedEntries embedF chunks).length ∧
    (∀ chunks10 : List Chunk, chunks10.length = 10 →
      (add_documents failAt37 col chunks10).col.length = col.length + 8) := by
  have h1 := (add_documents_spec embedF col chunks).1
  refine ⟨h1, by rw [h1, List.length_append], ?_⟩
  intro cks hlen
  have h2 := (add_documents_spec failAt37 col cks).1
  rw [h2, List.length_append]
  match cks, hlen with
  | [a, b, c, d, e, f, g, h, i, j], _ =>
    rfl

theorem claim_C3_witness :
    (List.replicate 10 sampleChunk).length = 10 ∧
    (add_documents failAt37 [] (List.replicate 10 sampleChunk)).col.length =
      ([] : List Entry).length + 8 :=
  ⟨by decide,
    (claim_C3_partial_failure failAt37 [] []).2.2 (List.replicate 10 sampleChunk) (by decide)⟩

/-- C7 (counterexample): on a singleton batch whose embedding succeeds,
`add_documents` persists one entry but returns `None`, not the
persisted count — the Python function has no `return` statement on
this path. -/
theorem claim_C7_counterexample :
    (add_documents (fun _ _ => some [0]) [] [sampleChunk]).col.length = 1 ∧
    (add_documents (fun _ _ => some [0]) [] [sampleChunk]).ret = none ∧
    (add_documents (fun _ _ => some [0]) [] [sampleChunk]).ret ≠
      some ((add_documents (fun _ _ => some [0]) [] [sampleChunk]).col.length) := by
  decide

/-- C7 (amended): `add_documents` returns `None` on every path (the
persisted count is only logged); an empty batch leaves the collection
untouched and never reaches `collection.add`. -/
theorem claim_C7_amended (embedF : Nat → List Char → Option (List Int))
    (col : List Entry) (chunks : List Chunk) :
    (add_documents embedF col chunks).ret = none ∧
    add_documents embedF col [] = { col := col, addCalled := false, ret := none } :=
  ⟨(add_documents_spec embedF col chunks).2, rfl⟩

/-- C4: on an empty collection, `search` returns `[]` without touching
the embedding service (its outcome is universally quantified, failures
included), and `ask` then returns the fixed no-knowledge answer with
empty sources. -/
theorem claim_C4_empty_store (clientOk : Bool)
    (embedF : List Char → Except (List Char) (List Int))
    (queryF : List Int → Nat → Except (List Char) (List DocHit))
    (genF : List Char → Except (List Char) (List Char))
    (q : List Char) (hq : q ≠ []) (col : List Entry) (hcol : col.length = 0) :
    search embedF queryF col q TOP_K = [] ∧
    ask clientOk embedF queryF genF col q =
      { answer := noKnowledgeAnswer, sources := [] } := by
  have hs : search embedF queryF col q TOP_K = [] := by
    unfold search
    rw [if_pos hcol]
  refine ⟨hs, ?_⟩
  unfold ask
  rw [hs]
  rfl

theorem claim_C4_witness :
    search (fun _ => Except.ok []) (fun _ _ => Except.ok []) [] "q".data TOP_K = [] ∧
    ask true (fun _ => Except.ok []) (fun _ _ => Except.ok [])
      (fun _ => Except.ok []) [] "q".data =
      { answer := noKnowledgeAnswer, sources := [] } :=
  claim_C4_empty_store true (fun _ => Except.ok []) (fun _ _ => Except.ok [])
    (fun _ => Except.ok []) "q".data (by decide) [] rfl

/-- The sources list of `generate_answer` (with an initialized client)
is the per-chunk citation of every context chunk, whatever the
generation call returns. -/
theorem generate_answer_sources (genF : List Char → Except (List Char) (List Char))
    (q : List Char) (docs : List DocHit) :
    (generate_answer true genF q docs).sources = docs.map citationOf := by
  unfold generate_answer
  cases h : genF (user_message q (contextOf docs)) <;> simp [h]

def defaultDoc : DocHit :=
  { text := []
    metadata := { page := PageVal.int 0, chunk_id := 0, chapter := 0, source := [] }
    distance := 0 }

def defaultCitation : Citation := citationOf defaultDoc

theorem getD_map_of_lt {α β : Type} (f : α → β) (l : List α) (i : Nat)
    (dα : α) (dβ : β) (hi : i < l.length) :
    (l.map f).getD i dβ = f (l.getD i dα) := by
  have h1 : l[i]? = some l[i] := List.getElem?_eq_getElem hi
  rw [List.getD_eq_getElem?_getD, List.getD_eq_getElem?_getD, List.getElem?_map, h1]
  rfl

/-- C5 (amended): for a retrieved chunk whose metadata page is the
integer `n`, the derived citation's translated page is `n - 16`, and
its preview is the first 100 characters of the chunk text followed by
the literal ellipsis `"..."`. -/
theorem claim_C5_citation_amended (genF : List Char → Except (List Char) (List Char))
    (q : List Char) (docs : List DocHit) (i : Nat) (n : Int)
    (hi : i < docs.length)
    (hp : (docs.getD i defaultDoc).metadata.page = PageVal.int n) :
    (generate_answer true genF q docs).sources.length = docs.length ∧
    ((generate_answer true genF q docs).sources.getD i defaultCitation).book_page =
      PageVal.int (n - PAGE_OFFSET) ∧
    ((generate_answer true genF q docs).sources.getD i defaultCitation).preview =
      (docs.getD i defaultDoc).text.take 100 ++ "...".data := by
  rw [generate_answer_sources, getD_map_of_lt citationOf docs i defaultDoc defaultCitation hi]
  refine ⟨List.length_map _ _, ?_, rfl⟩
  show bookPageOf (docs.getD i defaultDoc).metadata.page = PageVal.int (n - PAGE_OFFSET)
  rw [hp]
  rfl

/-- A retrieved chunk with native page 420 and five-character text. -/
def c5Doc : DocHit :=
  { text := "hello".data
    metadata := { page := PageVal.int 420, chunk_id := 0, chapter := 10, source := sourceLabel }
    distance := 0 }

theorem claim_C5_witness :
    0 < [c5Doc].length ∧
    ([c5Doc].getD 0 defaultDoc).metadata.page = PageVal.int 420 ∧
    (420 : Int) - PAGE_OFFSET = 404 ∧
    ((generate_answer true (fun _ => Except.ok []) "q".data [c5Doc]).sources.getD 0
        defaultCitation).book_page = PageVal.int (420 - PAGE_OFFSET) ∧
    ((generate_answer true (fun _ => Except.ok []) "q".data [c5Doc]).sources.getD 0
        defaultCitation).preview = ([c5Doc].getD 0 defaultDoc).text.take 100 ++ "...".data :=
  ⟨by decide, by decide, by decide,
    (claim_C5_citation_amended (fun _ => Except.ok []) "q".data [c5Doc] 0 420
      (by decide) (by decide)).2.1,
    (claim_C5_citation_amended (fun _ => Except.ok []) "q".data [c5Doc] 0 420
      (by decide) (by decide)).2.2⟩

/-- C5 (counterexample): the preview of the citation derived for
`c5Doc` is `"hello..."`, which is not a prefix of the chunk text
`"hello"`: a list `p` is a prefix of `t` exactly when
`p = t.take p.length`, and here the preview (8 characters) differs
from every prefix of the 5-character text. -/
theorem claim_C5_counterexample :
    ((generate_answer true (fun _ => Except.ok []) "q".data [c5Doc]).sources.getD 0
        defaultCitation).preview = "hello...".data ∧
    "hello".data.length = 5 ∧
    "hello...".data.length = 8 ∧
    ((generate_answer true (fun _ => Except.ok []) "q".data [c5Doc]).sources.getD 0
        defaultCitation).preview ≠
      "hello".data.take (((generate_answer true (fun _ => Except.ok []) "q".data
        [c5Doc]).sources.getD 0 defaultCitation).preview).length := by
  decide

/-- C6: when the generation call raises, `generate_answer` does not
propagate the exception: it returns the fixed error-describing answer
embedding the cause together with the full citation list computed from
the context chunks. -/
theorem claim_C6_generation_failure (q : List Char) (docs : List DocHit)
    (e : List Char) (genF : List Char → Except (List Char) (List Char))
    (hdocs : docs ≠ [])
    (hfail : genF (user_message q (contextOf docs)) = Except.error e) :
    generate_answer true genF q docs =
      { answer := genFailAnswer e, sources := docs.map citationOf } := by
  unfold generate_answer
  simp [hfail]

def c6GenF : List Char → Except (List Char) (List Char) := fun _ =>
  Except.error "boom".data

theorem claim_C6_witness :
    [c5Doc] ≠ ([] : List DocHit) ∧
    c6GenF (user_message "q".data (contextOf [c5Doc])) = Except.error "boom".data ∧
    generate_answer true c6GenF "q".data [c5Doc] =
      { answer := genFailAnswer "boom".data, sources := [c5Doc].map citationOf } :=
  ⟨by decide, rfl,
    claim_C6_generation_failure "q".data [c5Doc] "boom".data c6GenF (by decide) rfl⟩

/-- C10: with a non-empty collection, `search` returns `[]` when the
query-embedding call raises (and likewise when the Chroma query
raises), `ask` then returns the fixed no-knowledge fallback with empty
sources, and the `ask` outcome is the very value produced for an empty
collection — embedding failure and empty knowledge base are
indistinguishable at the `ask` interface. -/
theorem claim_C10_failure_fallback (clientOk : Bool)
    (embedF : List Char → Except (List Char) (List Int))
    (queryF : List Int → Nat → Except (List Char) (List DocHit))
    (genF : List Char → Except (List Char) (List Char))
    (col : List Entry) (q e : List Char)
    (hcol : col ≠ [])
    (hembed : embedF q = Except.error e) :
    search embedF queryF col q TOP_K = [] ∧
    ask clientOk embedF queryF genF col q =
      { answer := noKnowledgeAnswer, sources := [] } ∧
    (∀ (clientOk₂ : Bool) (embedF₂ : List Char → Except (List Char) (List Int))
       (queryF₂ : List Int → Nat → Except (List Char) (List DocHit))
       (genF₂ : List Char → Except (List Char) (List Char)) (col₂ : List Entry),
      col₂.length = 0 →
      ask clientOk₂ embedF₂ queryF₂ genF₂ col₂ q =
        ask clientOk embedF queryF genF col q) ∧
    (∀ (v : List Int) (e₂ : List Char)
       (embedF₃ : List Char → Except (List Char) (List Int))
       (queryF₃ : List Int → Nat → Except (List Char) (List DocHit)),
      embedF₃ q = Except.ok v → queryF₃ v TOP_K = Except.error e₂ →
      search embedF₃ queryF₃ col q TOP_K = []) := by
  have hlen : ¬ col.length = 0 := fun h => hcol (List.length_eq_zero.mp h)
  have hs : search embedF queryF col q TOP_K = [] := by
    unfold search
    rw [if_neg hlen, hembed]
  have ha : ask clientOk embedF queryF genF col q =
      { answer := noKnowledgeAnswer, sources := [] } := by
    unfold ask
    rw [hs]
    rfl
  refine ⟨hs, ha, ?_, ?_⟩
  · intro clientOk₂ embedF₂ queryF₂ genF₂ col₂ hcol₂
    have hs₂ : search embedF₂ queryF₂ col₂ q TOP_K = [] := by
      unfold search
      rw [if_pos hcol₂]
    rw [ha]
    unfold ask
    rw [hs₂]
    rfl
  · intro v e₂ embedF₃ queryF₃ h3 h4
    unfold search
    rw [if_neg hlen, h3]
    simp [h4]

/-- A persisted entry making the collection non-empty. -/
def c10Entry : Entry :=
  { eid := "chunk_10_0".data, document := "t".data
    metadata := { page := PageVal.int 419, chunk_id := 0, chapter := 10, source := sourceLabel }
    embedding := [0] }

def c10FailEmbed : List Char → Except (List Char) (List Int) := fun _ =>
  Except.error "emb".data

theorem claim_C10_witness :
    [c10Entry] ≠ ([] : List Entry) ∧
    c10FailEmbed "q".data = Except.error "emb".data ∧
    search c10FailEmbed (fun _ _ => Except.ok []) [c10Entry] "q".data TOP_K = [] ∧
    ask true c10FailEmbed (fun _ _ => Except.ok []) (fun _ => Except.ok [])
      [c10Entry] "q".data = { answer := noKnowledgeAnswer, sources := [] } :=
  ⟨by decide, rfl,
    (claim_C10_failure_fallback true c10FailEmbed (fun _ _ => Except.ok [])
      (fun _ => Except.ok []) [c10Entry] "q".data "emb".data (by decide) rfl).1,
    (claim_C10_failure_fallback true c10FailEmbed (fun _ _ => Except.ok [])
      (fun _ => Except.ok []) [c10Entry] "q".data "emb".data (by decide) rfl).2.1⟩

end AiTutor
